import Mathlib

/-!
# Verification of the csvtool range mini-language and row filter

Shallow embedding of `csvtool.py`'s core: `range_normalizer` (parsing a
comma-separated range expression into a sorted merged list of closed integer
intervals) and `RangeIterator` (lazily selecting the elements of an input
sequence whose 0-based position is enumerated by the interval set, or the
complement when the filter is inverted).

Python strings are modelled as `List Char`, Python's arbitrary-precision
integers as `Int`, a raised `ValueError` as `Except.error ()`, and a
`StopIteration` escaping `RangeIterator.__iter__` (which aborts a traversal
before it yields anything) as `none`.
-/

deriving instance DecidableEq for Except

set_option maxRecDepth 100000

/-- The characters Python's `int()` strips from both ends of its argument
(ASCII whitespace; the model restricts Python's unicode whitespace set to
ASCII, which is all the repository ever feeds it). -/
def isPySpace (c : Char) : Bool :=
  c = ' ' || c = '\t' || c = '\n' || c = '\x0d' || c = '\x0b' || c = '\x0c'

/-- ASCII decimal digit test (model of `str.isdigit` as `int()` consumes it). -/
def isDigitChar (c : Char) : Bool := '0' ≤ c && c ≤ '9'

/-- Numeric value of an ASCII digit. -/
def digitVal (c : Char) : Nat := c.toNat - '0'.toNat

/-- Digit-string accumulator for `int()`: after at least one digit has been
read, further characters are digits or single underscores that must be
followed by a digit (Python's `1_000` grouping syntax). -/
def pyDigitsCore : Nat → List Char → Option Nat
  | acc, [] => some acc
  | acc, c :: cs =>
    if isDigitChar c then pyDigitsCore (acc * 10 + digitVal c) cs
    else if c = '_' then
      match cs with
      | [] => none
      | d :: cs' => if isDigitChar d then pyDigitsCore (acc * 10 + digitVal d) cs' else none
    else none

/-- The digit part of `int()`: one leading digit, then `pyDigitsCore`. -/
def pyDigits : List Char → Option Nat
  | [] => none
  | c :: cs => if isDigitChar c then pyDigitsCore (digitVal c) cs else none

/-- Strip leading and trailing whitespace, as `int()` does before parsing. -/
def stripPy (cs : List Char) : List Char :=
  ((cs.dropWhile isPySpace).reverse.dropWhile isPySpace).reverse

/-- Model of Python's `int(s)`: strip surrounding whitespace, optional single
sign, then a non-empty digit string; `none` models a raised `ValueError`. -/
def pyInt (cs : List Char) : Option Int :=
  match stripPy cs with
  | [] => none
  | c :: rest =>
    if c = '+' then (pyDigits rest).map (fun n => (n : Int))
    else if c = '-' then (pyDigits rest).map (fun n => -(n : Int))
    else (pyDigits (c :: rest)).map (fun n => (n : Int))

/-- Model of Python's `s.split(sep)` for a one-character separator `sep`:
always returns at least one piece, empty pieces included. -/
def splitOnChar (sep : Char) : List Char → List (List Char)
  | [] => [[]]
  | c :: cs =>
    if c = sep then [] :: splitOnChar sep cs
    else
      match splitOnChar sep cs with
      | [] => [[c]]
      | p :: ps => (c :: p) :: ps

/-- One iteration of the atom loop in `range_normalizer` (csvtool.py lines
36-58): split the atom on `'-'`; 1 part is a single value or an empty atom
that is skipped, 2 parts give a range whose empty sides default to `0` and
`ulim`, and any other part count raises `ValueError`. -/
def parseAtom (ulim : Int) (a : List Char) : Except Unit (Option (Int × Int)) :=
  match splitOnChar '-' a with
  | [] => .ok none
  | [x] =>
    if x = [] then .ok none
    else
      match pyInt x with
      | none => .error ()
      | some n => .ok (some (n, n))
  | [x, y] =>
    match (if x = [] then some (0 : Int) else pyInt x) with
    | none => .error ()
    | some lb =>
      match (if y = [] then some ulim else pyInt y) with
      | none => .error ()
      | some ub => .ok (some (lb, ub))
  | _ :: _ :: _ :: _ => .error ()

/-- The atom loop of `range_normalizer`: collect the candidate intervals of
the atoms in order, propagating the first `ValueError`. -/
def parseAtomList (ulim : Int) : List (List Char) → Except Unit (List (Int × Int))
  | [] => .ok []
  | a :: rest =>
    match parseAtom ulim a with
    | .error e => .error e
    | .ok none => parseAtomList ulim rest
    | .ok (some iv) =>
      match parseAtomList ulim rest with
      | .error e => .error e
      | .ok ivs => .ok (iv :: ivs)

/-- Candidate intervals of a range expression: split on `','` and run the
atom loop (the state of `normalized_sequences` just before the sort). -/
def candidatesOf (ulim : Int) (ranges : List Char) : Except Unit (List (Int × Int)) :=
  parseAtomList ulim (splitOnChar ',' ranges)

/-- The sort order used by `sorted(..., key=operator.itemgetter(0, 1))`:
lexicographic on (lower, upper). -/
def lexLe (a b : Int × Int) : Prop :=
  a.1 < b.1 ∨ (a.1 = b.1 ∧ a.2 ≤ b.2)

instance : DecidableRel lexLe := fun a b => by
  unfold lexLe; exact inferInstance

instance : IsTotal (Int × Int) lexLe := by
  constructor; intro a b; unfold lexLe; omega

instance : IsTrans (Int × Int) lexLe := by
  constructor; intro a b c; unfold lexLe; omega

/-- The merge test of csvtool.py line 73: intervals `a` (earlier) and `b`
(later) merge when `a` starts no later than `b` and reaches at least to just
below `b`'s start. -/
def mergeCond (a b : Int × Int) : Prop := a.1 ≤ b.1 ∧ b.1 - 1 ≤ a.2

instance : DecidableRel mergeCond := fun a b => by
  unfold mergeCond; exact inferInstance

/-- The inner `while n2 < l2` loop of `range_normalizer` at a fixed `n1`,
with `a` the interval currently stored at index `n1` and the argument list
the elements after it: on a merge the later element is popped
(`normalized_sequences.pop(n2)` + `continue`) and scanning resumes at the
same index, otherwise `n2 += 1` moves past the kept element.  Returns the
final element at `n1` and the surviving later elements. -/
def innerScan (a : Int × Int) : List (Int × Int) → (Int × Int) × List (Int × Int)
  | [] => (a, [])
  | b :: rest =>
    if mergeCond a b then
      innerScan (a.1, max a.2 b.2) rest
    else
      ((innerScan a rest).1, b :: (innerScan a rest).2)

/-- The outer `while n1 < l1` loop of `range_normalizer`, with `fuel` the
number of iterations left out of the fixed bound `l1 = len - 1` (the Python
bound is computed before any pop and never updated): each iteration runs the
inner scan at the current index `n1` — the head of the argument list — and
moves on.  When the fuel ends first, at most one unscanned element remains
(the list only ever shrinks), and an index with no later elements is a
no-op, exactly as in the Python loop. -/
def mergeOuter : Nat → List (Int × Int) → List (Int × Int)
  | _, [] => []
  | 0, l => l
  | fuel + 1, a :: rest =>
    let s := innerScan a rest
    s.1 :: mergeOuter fuel s.2

/-- The whole merge phase of `range_normalizer` (csvtool.py lines 61-83). -/
def mergeAll (l : List (Int × Int)) : List (Int × Int) :=
  mergeOuter (l.length - 1) l

/-- Model of `range_normalizer(ranges, ulim)` (csvtool.py lines 20-84):
parse the candidate intervals, sort them by (lower, upper), then run the
quadratic pairwise merge loop.  (`sorted` is a stable sort, but the sort key
is the whole pair, so the sorted list is unique and insertion sort produces
it.) -/
def range_normalizer (ranges : List Char) (ulim : Int := 2 ^ 128) :
    Except Unit (List (Int × Int)) :=
  match candidatesOf ulim ranges with
  | .error e => .error e
  | .ok cands => .ok (mergeAll (List.insertionSort lexLe cands))

/-- `range(l, u + 1)` as used by `RangeIterator.__iter__`: the integers from
`l` to `u` inclusive, ascending, empty when `u < l`. -/
def intRange (l u : Int) : List Int :=
  (List.range (u + 1 - l).toNat).map (fun (i : Nat) => l + (i : Int))

/-- The covered-integer enumeration of `RangeIterator.__iter__` line 123:
`chain(*[range(l, u + 1) for (l, u) in sequences])`. -/
def coveredList (seqs : List (Int × Int)) : List Int :=
  seqs.flatMap (fun iv => intRange iv.1 iv.2)

/-- The `__next__` loop of `RangeIterator` (csvtool.py lines 131-153), one
whole traversal at once: `item` is `_sequence_item`, `rest` the unconsumed
part of the covered-integer generator, `p` the enumeration counter.  On a
position match the cursor advances (keeping its stale last value once the
generator is exhausted, exactly as the code does — the
`_end_sequence_encountered` flag is never read) and the element is yielded
when `filter_out` is false; on a mismatch it is yielded when `filter_out` is
true. -/
def runFilter {α : Type} (fo : Bool) : Int → List Int → Nat → List α → List α
  | _, _, _, [] => []
  | item, rest, p, x :: xs =>
    if (p : Int) = item then
      match rest with
      | [] => (if fo then [] else [x]) ++ runFilter fo item [] (p + 1) xs
      | y :: ys => (if fo then [] else [x]) ++ runFilter fo y ys (p + 1) xs
    else
      (if fo then [x] else []) ++ runFilter fo item rest (p + 1) xs

/-- One full traversal of a `RangeIterator` built over interval list `seqs`:
`__iter__` primes `_sequence_item` with `next(...)` on the covered-integer
generator, so an empty enumeration raises a `StopIteration` that escapes
`__iter__` and aborts the traversal before any element is produced
(modelled as `none`); otherwise the `__next__` loop runs to exhaustion of
the input. -/
def rangeIterator {α : Type} (input : List α) (seqs : List (Int × Int)) (fo : Bool) :
    Option (List α) :=
  match coveredList seqs with
  | [] => none
  | x :: xs => some (runFilter fo x xs 0 input)

/-- `RangeIterator.__init__` with a string argument: normalize it with the
default sentinel, propagating the `ValueError` of a malformed expression. -/
def rangeIteratorOfString {α : Type} (input : List α) (ranges : List Char) (fo : Bool) :
    Except Unit (Option (List α)) :=
  match range_normalizer ranges with
  | .error e => .error e
  | .ok seqs => .ok (rangeIterator input seqs fo)

/-! ## Specification-side definitions

These transcribe the spec's wording (grammar shapes, positional selection,
interval-set covers) and are compared against the source-side definitions
above. -/

/-- The spec's atom grammar, by shape of the atom (number of `'-'`
occurrences and emptiness of the sides): empty atom → nothing, `N` → `(N,N)`,
`-N` → `(0,N)`, `N-` → `(N, ulim)`, `-` → `(0, ulim)`, `A-B` → `(A,B)`; more
than two `'-'`-delimited parts or a failing numeral is the malformed-input
error. -/
def grammarAtom (ulim : Int) (a : List Char) : Except Unit (Option (Int × Int)) :=
  if a = [] then .ok none
  else if a.count '-' = 0 then
    match pyInt a with
    | none => .error ()
    | some n => .ok (some (n, n))
  else if a.count '-' = 1 then
    let pre := a.takeWhile (fun c => c ≠ '-')
    let post := (a.dropWhile (fun c => c ≠ '-')).tail
    if pre = [] then
      if post = [] then .ok (some (0, ulim))
      else
        match pyInt post with
        | none => .error ()
        | some n => .ok (some (0, n))
    else if post = [] then
      match pyInt pre with
      | none => .error ()
      | some n => .ok (some (n, ulim))
    else
      match pyInt pre, pyInt post with
      | some x, some y => .ok (some (x, y))
      | _, _ => .error ()
  else .error ()

/-- Candidate collection driven by the grammar-side atom parser. -/
def grammarAtomList (ulim : Int) : List (List Char) → Except Unit (List (Int × Int))
  | [] => .ok []
  | a :: rest =>
    match grammarAtom ulim a with
    | .error e => .error e
    | .ok none => grammarAtomList ulim rest
    | .ok (some iv) =>
      match grammarAtomList ulim rest with
      | .error e => .error e
      | .ok ivs => .ok (iv :: ivs)

/-- Candidates of a range expression per the spec's grammar. -/
def grammarCandidatesOf (ulim : Int) (ranges : List Char) : Except Unit (List (Int × Int)) :=
  grammarAtomList ulim (splitOnChar ',' ranges)

/-- The positions of an atom where the grammar requires an integer numeral:
the whole atom when it has no `'-'` and is non-empty, and each non-empty side
of the single `'-'` when it has exactly one. -/
def requiredNumerals (a : List Char) : List (List Char) :=
  if a.count '-' = 0 then (if a = [] then [] else [a])
  else if a.count '-' = 1 then
    (if a.takeWhile (fun c => c ≠ '-') = [] then []
     else [a.takeWhile (fun c => c ≠ '-')]) ++
    (if ((a.dropWhile (fun c => c ≠ '-')).tail) = [] then []
     else [(a.dropWhile (fun c => c ≠ '-')).tail])
  else []

/-- An atom is malformed when it splits into more than two `'-'`-delimited
parts, or a non-integer numeral stands where an integer is required. -/
def malformedAtom (a : List Char) : Prop :=
  2 ≤ a.count '-' ∨ ∃ s ∈ requiredNumerals a, pyInt s = none

/-- Whether 0-based position `q` lies in some interval of the set. -/
def inIntervalSet (seqs : List (Int × Int)) (q : Nat) : Bool :=
  seqs.any (fun iv => iv.1 ≤ (q : Int) && (q : Int) ≤ iv.2)

/-- The input elements whose 0-based position lies in some interval of the
set, in input order. -/
def selectedElems {α : Type} (input : List α) (seqs : List (Int × Int)) : List α :=
  (input.enum.filter (fun e => inIntervalSet seqs e.1)).map Prod.snd

/-- The input elements whose 0-based position lies in no interval of the
set, in input order. -/
def rejectedElems {α : Type} (input : List α) (seqs : List (Int × Int)) : List α :=
  (input.enum.filter (fun e => !inIntervalSet seqs e.1)).map Prod.snd

/-- Reference filter: keep element at position `p` when `f p` disagrees with
the inversion flag (proof scaffolding relating `runFilter` to a pure
positional filter). -/
def specFrom {α : Type} (fo : Bool) (f : Nat → Bool) : Nat → List α → List α
  | _, [] => []
  | p, x :: xs => (if f p != fo then [x] else []) ++ specFrom fo f (p + 1) xs

/-- Integer `q` lies in the closed interval `iv`. -/
def inIv (iv : Int × Int) (q : Int) : Prop := iv.1 ≤ q ∧ q ≤ iv.2

/-- The set of integers covered by a list of closed intervals. -/
def coverSet (L : List (Int × Int)) : Set Int := {q | ∃ iv ∈ L, inIv iv q}

/-- A sorted, pairwise-disjoint list of well-formed closed intervals (the
spec's competitor class for minimality). -/
def sortedDisjoint (L : List (Int × Int)) : Prop :=
  (∀ iv ∈ L, iv.1 ≤ iv.2) ∧ List.Pairwise lexLe L ∧
    List.Pairwise (fun A B => ∀ q : Int, ¬(inIv A q ∧ inIv B q)) L

/-- Canonical interval-set shape: well-formed intervals, ascending, with a
gap of at least one uncovered integer between consecutive ones. -/
def goodShape (L : List (Int × Int)) : Prop :=
  (∀ iv ∈ L, iv.1 ≤ iv.2) ∧ List.Pairwise (fun A B : Int × Int => A.2 + 1 < B.1) L

/-- `r` is the minimal sorted disjoint interval list covering exactly the
integers covered by `cands`. -/
def minimalCover (r cands : List (Int × Int)) : Prop :=
  sortedDisjoint r ∧ coverSet r = coverSet cands ∧
    ∀ L', sortedDisjoint L' → coverSet L' = coverSet cands → r.length ≤ L'.length


/-! Concrete evaluations mirroring the cases of test_csvtool.py, checking
the embedding against the repository's own test suite. -/

example : range_normalizer "0".toList = .ok [(0, 0)] := by decide
example : range_normalizer "-".toList = .ok [(0, 2 ^ 128)] := by decide
example : range_normalizer "-4,6,8,10-".toList =
    .ok [(0, 4), (6, 6), (8, 8), (10, 2 ^ 128)] := by decide
example : range_normalizer "-4,6-8,7-11,10-".toList = .ok [(0, 4), (6, 2 ^ 128)] := by decide
example : range_normalizer "5-2".toList = .ok [(5, 2)] := by decide
example : range_normalizer "".toList = .ok [] := by decide
example : rangeIterator ([0, 1, 2] : List Int) [(0, 0)] false = some [0] := by decide
example : rangeIterator ([0, 1, 2] : List Int) [(0, 0)] true = some [1, 2] := by decide
example : rangeIterator ([0, 1, 2] : List Int) [] false = none := by decide
example : rangeIterator (List.range 10) [(0, 0), (2, 4), (8, 9)] false =
    some [0, 2, 3, 4, 8, 9] := by decide
example : rangeIterator (List.range 10) [(0, 0), (2, 4), (8, 9)] true =
    some [1, 5, 6, 7] := by decide

/-! ## Structure of `splitOnChar` -/

theorem splitOnChar_ne_nil (sep : Char) (s : List Char) : splitOnChar sep s ≠ [] := by
  induction s with
  | nil => simp [splitOnChar]
  | cons c cs ih =>
    by_cases h : c = sep
    · simp [splitOnChar, h]
    · simp only [splitOnChar, h, if_false]
      rcases hs : splitOnChar sep cs with _ | ⟨p, ps⟩
      · simp
      · simp

theorem length_splitOnChar (sep : Char) (s : List Char) :
    (splitOnChar sep s).length = s.count sep + 1 := by
  induction s with
  | nil => simp [splitOnChar]
  | cons c cs ih =>
    by_cases h : c = sep
    · simp [splitOnChar, h, List.count_cons, ih]
    · rcases hs : splitOnChar sep cs with _ | ⟨p, ps⟩
      · exact absurd hs (splitOnChar_ne_nil sep cs)
      · rw [hs] at ih
        simp [splitOnChar, h, hs, List.count_cons] at ih ⊢
        omega

theorem not_mem_of_mem_splitOnChar (sep : Char) (s p : List Char)
    (hp : p ∈ splitOnChar sep s) : sep ∉ p := by
  induction s generalizing p with
  | nil =>
    simp [splitOnChar] at hp
    subst hp; simp
  | cons c cs ih =>
    by_cases h : c = sep
    · simp only [splitOnChar, h, if_true, List.mem_cons] at hp
      rcases hp with hp | hp
      · subst hp; simp
      · exact ih p hp
    · rcases hs : splitOnChar sep cs with _ | ⟨q, qs⟩
      · exact absurd hs (splitOnChar_ne_nil sep cs)
      · simp only [splitOnChar, h, if_false, hs, List.mem_cons] at hp
        rcases hp with hp | hp
        · subst hp
          intro hmem
          rcases List.mem_cons.mp hmem with h' | h'
          · exact h h'.symm
          · exact ih q (by simp [hs]) h'
        · exact ih p (by simp [hs, hp])

theorem splitOnChar_of_count_zero (sep : Char) (s : List Char) (h : s.count sep = 0) :
    splitOnChar sep s = [s] := by
  induction s with
  | nil => simp [splitOnChar]
  | cons c cs ih =>
    simp only [List.count_cons] at h
    have hc : ¬ c = sep := by
      intro hc; simp [hc] at h
    have hcs : cs.count sep = 0 := by
      have hb : (c == sep) = false := by simp [hc]
      simpa [hb] using h
    simp [splitOnChar, hc, ih hcs]

theorem splitOnChar_of_count_one (sep : Char) (s : List Char) (h : s.count sep = 1) :
    splitOnChar sep s =
      [s.takeWhile (fun c => c ≠ sep), (s.dropWhile (fun c => c ≠ sep)).tail] := by
  induction s with
  | nil => simp at h
  | cons c cs ih =>
    simp only [List.count_cons] at h
    by_cases hc : c = sep
    · have hcs : cs.count sep = 0 := by simp [hc] at h; omega
      subst hc
      simp [splitOnChar, splitOnChar_of_count_zero _ _ hcs, List.takeWhile_cons,
        List.dropWhile_cons]
    · have hcs : cs.count sep = 1 := by
        have : (c == sep) = false := by simp [hc]
        simp [this] at h; omega
      rcases hs : splitOnChar sep cs with _ | ⟨q, qs⟩
      · exact absurd hs (splitOnChar_ne_nil sep cs)
      · rw [hs] at ih
        simp only [splitOnChar, hc, if_false, hs]
        have h2 := ih hcs
        simp only [List.cons.injEq, and_true] at h2
        simp only [ne_eq, decide_not] at h2 ⊢
        simp [List.takeWhile_cons, List.dropWhile_cons, hc, h2.1, h2.2]

/-! ## The atom parser follows the spec grammar (C3, C4 groundwork) -/

theorem parseAtom_eq_grammarAtom (ulim : Int) (a : List Char) :
    parseAtom ulim a = grammarAtom ulim a := by
  by_cases h0 : a.count '-' = 0
  · by_cases ha : a = []
    · subst ha; rfl
    · simp only [parseAtom, splitOnChar_of_count_zero _ _ h0, grammarAtom, ha, h0,
        if_false, if_true]
  · by_cases h1 : a.count '-' = 1
    · have ha : a ≠ [] := by
        intro h; subst h; simp at h1
      simp only [parseAtom, splitOnChar_of_count_one _ _ h1, grammarAtom, ha, h0, h1,
        if_false, if_true]
      by_cases hp : a.takeWhile (fun c => c ≠ '-') = []
      · rw [hp]
        by_cases hq : (a.dropWhile (fun c => c ≠ '-')).tail = []
        · rw [hq]; simp
        · obtain ⟨d, ds, hq2⟩ := List.exists_cons_of_ne_nil hq
          rw [hq2]
          cases pyInt (d :: ds) <;> simp
      · obtain ⟨c, cs2, hp2⟩ := List.exists_cons_of_ne_nil hp
        rw [hp2]
        by_cases hq : (a.dropWhile (fun c => c ≠ '-')).tail = []
        · rw [hq]
          cases pyInt (c :: cs2) <;> simp
        · obtain ⟨d, ds, hq2⟩ := List.exists_cons_of_ne_nil hq
          rw [hq2]
          cases pyInt (c :: cs2) <;> cases pyInt (d :: ds) <;> simp
    · have h2 : 2 ≤ a.count '-' := by omega
      have hlen : 3 ≤ (splitOnChar '-' a).length := by
        rw [length_splitOnChar]; omega
      have ha : a ≠ [] := by
        intro h; subst h; simp at h2
      rcases hs : splitOnChar '-' a with _ | ⟨x, rest1⟩
      · exact absurd hs (splitOnChar_ne_nil _ _)
      · rcases rest1 with _ | ⟨y, rest2⟩
        · rw [hs] at hlen; simp at hlen
        · rcases rest2 with _ | ⟨z, rest3⟩
          · rw [hs] at hlen; simp at hlen
          · simp [parseAtom, grammarAtom, hs, ha, h0, h1]

theorem parseAtomList_eq_grammarAtomList (ulim : Int) (l : List (List Char)) :
    parseAtomList ulim l = grammarAtomList ulim l := by
  induction l with
  | nil => rfl
  | cons a rest ih =>
    simp [parseAtomList, grammarAtomList, parseAtom_eq_grammarAtom, ih]

/-- C3: `normalize` maps each comma-separated atom of its input string to a
candidate interval exactly per the grammar — an empty atom contributes
nothing, atom `N` gives `(N, N)`, atom `-N` gives `(0, N)`, atom `N-` gives
`(N, upperSentinel)`, atom `-` gives `(0, upperSentinel)`, and atom `A-B`
gives `(A, B)` — before sorting and merging. -/
theorem candidatesOf_eq_grammar (ulim : Int) (ranges : List Char) :
    candidatesOf ulim ranges = grammarCandidatesOf ulim ranges := by
  unfold candidatesOf grammarCandidatesOf
  exact parseAtomList_eq_grammarAtomList ulim _

/-! ## Error characterization (C4) -/

theorem grammarAtom_error_iff (ulim : Int) (a : List Char) :
    grammarAtom ulim a = .error () ↔ malformedAtom a := by
  unfold grammarAtom malformedAtom requiredNumerals
  by_cases ha : a = []
  · subst ha; simp
  · by_cases h0 : a.count '-' = 0
    · simp only [ha, h0, if_false, if_true]
      cases hi : pyInt a <;> simp [hi, ha, h0]
    · by_cases h1 : a.count '-' = 1
      · simp only [ha, h0, h1, if_false, if_true]
        by_cases hp : a.takeWhile (fun c => c ≠ '-') = []
        · rw [hp]
          by_cases hq : (a.dropWhile (fun c => c ≠ '-')).tail = []
          · rw [hq]; simp [h1]
          · obtain ⟨d, ds, hq2⟩ := List.exists_cons_of_ne_nil hq
            rw [hq2]
            cases hi : pyInt (d :: ds) <;> simp [hi, h1]
        · obtain ⟨c, cs2, hp2⟩ := List.exists_cons_of_ne_nil hp
          rw [hp2]
          by_cases hq : (a.dropWhile (fun c => c ≠ '-')).tail = []
          · rw [hq]
            cases hi : pyInt (c :: cs2) <;> simp [hi, h1]
          · obtain ⟨d, ds, hq2⟩ := List.exists_cons_of_ne_nil hq
            rw [hq2]
            cases hi : pyInt (c :: cs2) <;> cases hj : pyInt (d :: ds) <;>
              simp [hi, hj, h1]
      · have h2 : 2 ≤ a.count '-' := by omega
        simp [ha, h0, h1, h2]

theorem parseAtomList_error_iff (ulim : Int) (l : List (List Char)) :
    parseAtomList ulim l = .error () ↔ ∃ a ∈ l, parseAtom ulim a = .error () := by
  induction l with
  | nil => simp [parseAtomList]
  | cons a rest ih =>
    rcases hr : parseAtom ulim a with e | o
    · simp [parseAtomList, hr]
    · rcases o with _ | iv
      · simp only [parseAtomList, hr]
        rw [ih]
        constructor
        · intro ⟨b, hb, he⟩; exact ⟨b, List.mem_cons_of_mem a hb, he⟩
        · intro ⟨b, hb, he⟩
          rcases List.mem_cons.mp hb with hb | hb
          · subst hb; rw [hr] at he; exact absurd he (by simp)
          · exact ⟨b, hb, he⟩
      · simp only [parseAtomList, hr]
        rcases hrest : parseAtomList ulim rest with e' | ivs
        · have : ∃ b ∈ rest, parseAtom ulim b = .error () := by
            rw [← ih, hrest]
          simp only [List.mem_cons]
          obtain ⟨b, hb, he⟩ := this
          simp only [true_iff, show (Except.error e' : Except Unit (List (Int × Int))) =
            .error () from rfl]
          exact ⟨b, Or.inr hb, he⟩
        · have hno : ¬ ∃ b ∈ rest, parseAtom ulim b = .error () := by
            rw [← ih, hrest]; simp
          simp only [List.mem_cons]
          constructor
          · intro h; exact absurd h (by simp)
          · intro ⟨b, hb, he⟩
            rcases hb with hb | hb
            · subst hb; rw [hr] at he; exact absurd he (by simp)
            · exact absurd ⟨b, hb, he⟩ hno

/-- C4: `normalize` raises the malformed-input error if and only if some
atom of the input splits into more than two `'-'`-delimited parts, or a
non-integer numeral appears where an integer is required; on every other
input it returns normally. -/
theorem range_normalizer_error_iff (ranges : List Char) (ulim : Int) :
    range_normalizer ranges ulim = .error () ↔
      ∃ a ∈ splitOnChar ',' ranges, malformedAtom a := by
  have hmain : candidatesOf ulim ranges = .error () ↔
      ∃ a ∈ splitOnChar ',' ranges, malformedAtom a := by
    unfold candidatesOf
    rw [parseAtomList_error_iff]
    constructor
    · rintro ⟨a, ha, he⟩
      refine ⟨a, ha, (grammarAtom_error_iff ulim a).mp ?_⟩
      rw [← parseAtom_eq_grammarAtom]; exact he
    · rintro ⟨a, ha, hm⟩
      refine ⟨a, ha, ?_⟩
      rw [parseAtom_eq_grammarAtom, grammarAtom_error_iff]; exact hm
  rw [← hmain]
  unfold range_normalizer
  rcases hc : candidatesOf ulim ranges with e | cands <;> simp

/-! ## Structure of the merge loop (C2, C5, C8, C9 groundwork) -/

theorem innerScan_sublist (a : Int × Int) (l : List (Int × Int)) :
    (innerScan a l).2.Sublist l := by
  induction l generalizing a with
  | nil => simp [innerScan]
  | cons b rest ih =>
    by_cases hc : mergeCond a b
    · simp only [innerScan, hc, if_true]
      exact (ih _).trans (List.sublist_cons_self b rest)
    · simp only [innerScan, hc, if_false]
      exact List.Sublist.cons₂ b (ih a)

theorem innerScan_id (a : Int × Int) (l : List (Int × Int))
    (h : ∀ b ∈ l, a.2 < b.1 - 1) : innerScan a l = (a, l) := by
  induction l with
  | nil => simp [innerScan]
  | cons b rest ih =>
    have hb := h b (List.mem_cons_self b rest)
    have hc : ¬ mergeCond a b := by
      unfold mergeCond; omega
    have hrest : innerScan a rest = (a, rest) :=
      ih (fun c hcm => h c (List.mem_cons_of_mem b hcm))
    simp [innerScan, hc, hrest]

theorem innerScan_spec (a : Int × Int) (l : List (Int × Int))
    (h : List.Pairwise lexLe (a :: l)) :
    (innerScan a l).1.1 = a.1 ∧ a.2 ≤ (innerScan a l).1.2 ∧
      (∀ b ∈ (innerScan a l).2, (innerScan a l).1.2 < b.1 - 1) ∧
      List.Pairwise lexLe ((innerScan a l).1 :: (innerScan a l).2) := by
  induction l generalizing a with
  | nil =>
    refine ⟨rfl, le_refl _, ?_, ?_⟩ <;> simp [innerScan]
  | cons b rest ih =>
    obtain ⟨hab, hbl⟩ := List.pairwise_cons.mp h
    by_cases hc : mergeCond a b
    · have hstep : innerScan a (b :: rest) = innerScan (a.1, max a.2 b.2) rest := by
        simp [innerScan, hc]
      have hpair : List.Pairwise lexLe ((a.1, max a.2 b.2) :: rest) := by
        rw [List.pairwise_cons]
        refine ⟨?_, (List.pairwise_cons.mp hbl).2⟩
        intro c hcmem
        have hac := hab c (List.mem_cons_of_mem b hcmem)
        have hbc := (List.pairwise_cons.mp hbl).1 c hcmem
        have hab' := hab b (List.mem_cons_self b rest)
        unfold lexLe at hac hbc hab' ⊢
        simp only at hac hbc hab' ⊢
        omega
      obtain ⟨ih1, ih2, ih3, ih4⟩ := ih _ hpair
      rw [hstep]
      refine ⟨ih1, ?_, ih3, ih4⟩
      exact le_trans (le_max_left a.2 b.2) ih2
    · have hab' : a.2 < b.1 - 1 := by
        have hmem := hab b (List.mem_cons_self b rest)
        unfold lexLe at hmem; unfold mergeCond at hc
        omega
      have hall : ∀ c ∈ rest, a.2 < c.1 - 1 := by
        intro c hcm
        have hbc := (List.pairwise_cons.mp hbl).1 c hcm
        unfold lexLe at hbc
        omega
      have hid : innerScan a rest = (a, rest) := innerScan_id a rest hall
      have hstep : innerScan a (b :: rest) = (a, b :: rest) := by
        simp [innerScan, hc, hid]
      rw [hstep]
      refine ⟨rfl, le_refl _, ?_, h⟩
      intro x hx
      rcases List.mem_cons.mp hx with hx | hx
      · subst hx; exact hab'
      · exact hall x hx

theorem innerScan_length (a : Int × Int) (l : List (Int × Int)) :
    (innerScan a l).2.length ≤ l.length :=
  (innerScan_sublist a l).length_le

theorem mergeOuter_spec : ∀ (fuel : Nat) (l : List (Int × Int)),
    l.length ≤ fuel + 1 → List.Pairwise lexLe l →
    List.Pairwise lexLe (mergeOuter fuel l) ∧
      List.Pairwise (fun A B : Int × Int => A.2 < B.1 - 1) (mergeOuter fuel l) ∧
      (∀ x ∈ mergeOuter fuel l, ∃ c ∈ l, x.1 = c.1 ∧ c.2 ≤ x.2) := by
  intro fuel
  induction fuel with
  | zero =>
    intro l hlen hp
    match l with
    | [] => simp [mergeOuter]
    | [x] =>
      refine ⟨by simp [mergeOuter], by simp [mergeOuter], ?_⟩
      intro y hy
      simp only [mergeOuter, List.mem_singleton] at hy
      exact ⟨x, by simp, by simp [hy]⟩
    | x :: y :: rest =>
      simp only [List.length_cons] at hlen
      omega
  | succ fuel ih =>
    intro l hlen hp
    match l with
    | [] => simp [mergeOuter]
    | a :: rest =>
      obtain ⟨i1, i2, i3, i4⟩ := innerScan_spec a rest hp
      have hlen2 : (innerScan a rest).2.length ≤ fuel + 1 := by
        have := innerScan_length a rest
        simp only [List.length_cons] at hlen
        omega
      obtain ⟨t1, t2, t3⟩ := ih (innerScan a rest).2 hlen2 (List.pairwise_cons.mp i4).2
      have hstep : mergeOuter (fuel + 1) (a :: rest) =
          (innerScan a rest).1 :: mergeOuter fuel (innerScan a rest).2 := rfl
      rw [hstep]
      refine ⟨?_, ?_, ?_⟩
      · rw [List.pairwise_cons]
        refine ⟨?_, t1⟩
        intro x hx
        obtain ⟨c, hcmem, hc1, hc2⟩ := t3 x hx
        have hlex := (List.pairwise_cons.mp i4).1 c hcmem
        unfold lexLe at hlex ⊢
        omega
      · rw [List.pairwise_cons]
        refine ⟨?_, t2⟩
        intro x hx
        obtain ⟨c, hcmem, hc1, hc2⟩ := t3 x hx
        have := i3 c hcmem
        omega
      · intro x hx
        rcases List.mem_cons.mp hx with hx | hx
        · subst hx
          exact ⟨a, List.mem_cons_self a rest, i1, i2⟩
        · obtain ⟨c, hcmem, hc1, hc2⟩ := t3 x hx
          exact ⟨c, List.mem_cons_of_mem a ((innerScan_sublist a rest).subset hcmem),
            hc1, hc2⟩

theorem mergeAll_spec (l : List (Int × Int)) (hp : List.Pairwise lexLe l) :
    List.Pairwise lexLe (mergeAll l) ∧
      List.Pairwise (fun A B : Int × Int => A.2 < B.1 - 1) (mergeAll l) ∧
      (∀ x ∈ mergeAll l, ∃ c ∈ l, x.1 = c.1 ∧ c.2 ≤ x.2) :=
  mergeOuter_spec (l.length - 1) l (by omega) hp

theorem coverSet_cons (a : Int × Int) (l : List (Int × Int)) :
    coverSet (a :: l) = {q : Int | inIv a q} ∪ coverSet l := by
  ext q
  simp only [coverSet, Set.mem_union, Set.mem_setOf_eq, List.mem_cons]
  constructor
  · rintro ⟨iv, hiv | hiv, h⟩
    · exact Or.inl (hiv ▸ h)
    · exact Or.inr ⟨iv, hiv, h⟩
  · rintro (h | ⟨iv, hiv, h⟩)
    · exact ⟨a, Or.inl rfl, h⟩
    · exact ⟨iv, Or.inr hiv, h⟩

theorem pairwise_merge_step (a b : Int × Int) (rest : List (Int × Int))
    (h : List.Pairwise lexLe (a :: b :: rest)) :
    List.Pairwise lexLe ((a.1, max a.2 b.2) :: rest) := by
  obtain ⟨hab, hbl⟩ := List.pairwise_cons.mp h
  rw [List.pairwise_cons]
  refine ⟨?_, (List.pairwise_cons.mp hbl).2⟩
  intro c hcmem
  have hac := hab c (List.mem_cons_of_mem b hcmem)
  have hbc := (List.pairwise_cons.mp hbl).1 c hcmem
  have hab' := hab b (List.mem_cons_self b rest)
  unfold lexLe at hac hbc hab' ⊢
  simp only at hac hbc hab' ⊢
  omega

theorem innerScan_cover (a : Int × Int) (l : List (Int × Int))
    (h : List.Pairwise lexLe (a :: l)) (hwa : a.1 ≤ a.2)
    (hwl : ∀ b ∈ l, b.1 ≤ b.2) :
    coverSet ((innerScan a l).1 :: (innerScan a l).2) = coverSet (a :: l) ∧
      (innerScan a l).1.1 ≤ (innerScan a l).1.2 := by
  induction l generalizing a with
  | nil => simp [innerScan, hwa]
  | cons b rest ih =>
    obtain ⟨hab, hbl⟩ := List.pairwise_cons.mp h
    by_cases hc : mergeCond a b
    · have hstep : innerScan a (b :: rest) = innerScan (a.1, max a.2 b.2) rest := by
        simp [innerScan, hc]
      have hwb : b.1 ≤ b.2 := hwl b (List.mem_cons_self b rest)
      have hwa' : (a.1, max a.2 b.2).1 ≤ (a.1, max a.2 b.2).2 := by
        simp only
        omega
      have hwrest : ∀ c ∈ rest, c.1 ≤ c.2 :=
        fun c hcm => hwl c (List.mem_cons_of_mem b hcm)
      obtain ⟨ihc, ihw⟩ := ih _ (pairwise_merge_step a b rest h) hwa' hwrest
      rw [hstep, ihc]
      refine ⟨?_, ihw⟩
      unfold mergeCond at hc
      ext q
      rw [coverSet_cons, coverSet_cons, coverSet_cons]
      simp only [Set.mem_union, Set.mem_setOf_eq, inIv]
      constructor
      · rintro (⟨h1, h2⟩ | hC)
        · by_cases hqa : q ≤ a.2
          · exact Or.inl ⟨h1, hqa⟩
          · refine Or.inr (Or.inl ⟨by omega, by omega⟩)
        · exact Or.inr (Or.inr hC)
      · rintro (⟨h1, h2⟩ | ⟨h1, h2⟩ | hC)
        · exact Or.inl ⟨h1, by omega⟩
        · refine Or.inl ⟨by omega, by omega⟩
        · exact Or.inr hC
    · have hall : ∀ c ∈ rest, a.2 < c.1 - 1 := by
        have hab' : a.2 < b.1 - 1 := by
          have hmem := hab b (List.mem_cons_self b rest)
          unfold lexLe at hmem; unfold mergeCond at hc
          omega
        intro c hcm
        have hbc := (List.pairwise_cons.mp hbl).1 c hcm
        unfold lexLe at hbc
        omega
      have hstep : innerScan a (b :: rest) = (a, b :: rest) := by
        simp [innerScan, hc, innerScan_id a rest hall]
      rw [hstep]
      exact ⟨rfl, hwa⟩

theorem mergeOuter_cover : ∀ (fuel : Nat) (l : List (Int × Int)),
    l.length ≤ fuel + 1 → List.Pairwise lexLe l → (∀ iv ∈ l, iv.1 ≤ iv.2) →
    coverSet (mergeOuter fuel l) = coverSet l ∧
      (∀ iv ∈ mergeOuter fuel l, iv.1 ≤ iv.2) := by
  intro fuel
  induction fuel with
  | zero =>
    intro l hlen hp hw
    match l with
    | [] => simp [mergeOuter]
    | [x] => exact ⟨rfl, hw⟩
    | x :: y :: rest =>
      simp only [List.length_cons] at hlen
      omega
  | succ fuel ih =>
    intro l hlen hp hw
    match l with
    | [] => simp [mergeOuter]
    | a :: rest =>
      have hwa : a.1 ≤ a.2 := hw a (List.mem_cons_self a rest)
      have hwrest : ∀ b ∈ rest, b.1 ≤ b.2 :=
        fun b hb => hw b (List.mem_cons_of_mem a hb)
      obtain ⟨hcov, hw1⟩ := innerScan_cover a rest hp hwa hwrest
      obtain ⟨_, _, _, i4⟩ := innerScan_spec a rest hp
      have hw2 : ∀ b ∈ (innerScan a rest).2, b.1 ≤ b.2 :=
        fun b hb => hwrest b ((innerScan_sublist a rest).subset hb)
      have hlen2 : (innerScan a rest).2.length ≤ fuel + 1 := by
        have := innerScan_length a rest
        simp only [List.length_cons] at hlen
        omega
      obtain ⟨c1, c2⟩ := ih (innerScan a rest).2 hlen2 (List.pairwise_cons.mp i4).2 hw2
      have hstep : mergeOuter (fuel + 1) (a :: rest) =
          (innerScan a rest).1 :: mergeOuter fuel (innerScan a rest).2 := rfl
      rw [hstep]
      constructor
      · rw [coverSet_cons, c1, ← coverSet_cons, hcov]
      · intro iv hiv
        rcases List.mem_cons.mp hiv with hiv | hiv
        · subst hiv; exact hw1
        · exact c2 iv hiv

theorem mergeAll_cover (l : List (Int × Int)) (hp : List.Pairwise lexLe l)
    (hw : ∀ iv ∈ l, iv.1 ≤ iv.2) :
    coverSet (mergeAll l) = coverSet l ∧ (∀ iv ∈ mergeAll l, iv.1 ≤ iv.2) :=
  mergeOuter_cover (l.length - 1) l (by omega) hp hw

/-! ## Bounds of parsed candidates -/

theorem mem_stripPy (c : Char) (cs : List Char) (h : c ∈ stripPy cs) : c ∈ cs := by
  unfold stripPy at h
  rw [List.mem_reverse] at h
  have h2 := (List.dropWhile_sublist isPySpace).subset h
  rw [List.mem_reverse] at h2
  exact (List.dropWhile_sublist isPySpace).subset h2

theorem pyInt_nonneg (cs : List Char) (n : Int) (hdash : '-' ∉ cs)
    (h : pyInt cs = some n) : 0 ≤ n := by
  unfold pyInt at h
  rcases hs : stripPy cs with _ | ⟨c, rest⟩
  · rw [hs] at h; simp at h
  · rw [hs] at h
    by_cases hplus : c = '+'
    · simp only [hplus, if_true] at h
      rcases hd : pyDigits rest with _ | m
      · rw [hd] at h; simp at h
      · rw [hd] at h
        simp at h
        omega
    · have hminus : ¬ c = '-' := by
        intro hm
        exact hdash (mem_stripPy '-' cs (by rw [hs, hm]; exact List.mem_cons_self _ _))
      simp only [hplus, hminus, if_false] at h
      rcases hd : pyDigits (c :: rest) with _ | m
      · rw [hd] at h; simp at h
      · rw [hd] at h
        simp at h
        omega

theorem parseAtom_ok_bounds (ulim : Int) (a : List Char) (iv : Int × Int)
    (hul : 0 ≤ ulim) (h : parseAtom ulim a = .ok (some iv)) :
    0 ≤ iv.1 ∧ 0 ≤ iv.2 := by
  unfold parseAtom at h
  have hnd : ∀ p ∈ splitOnChar '-' a, '-' ∉ p :=
    fun p hp => not_mem_of_mem_splitOnChar '-' a p hp
  rcases hs : splitOnChar '-' a with _ | ⟨x, rest1⟩
  · rw [hs] at h; simp at h
  · rcases rest1 with _ | ⟨y, rest2⟩
    · rw [hs] at h
      by_cases hx : x = []
      · simp [hx] at h
      · simp only [hx, if_false] at h
        rcases hi : pyInt x with _ | m
        · rw [hi] at h; simp at h
        · rw [hi] at h
          simp only [Except.ok.injEq, Option.some.injEq] at h
          have hm : 0 ≤ m := pyInt_nonneg x m (hnd x (by rw [hs]; simp)) hi
          subst h
          exact ⟨hm, hm⟩
    · rcases rest2 with _ | ⟨z, rest3⟩
      · rw [hs] at h
        rcases hlb : (if x = [] then some (0 : Int) else pyInt x) with _ | lb
        · simp [hlb] at h
        · rcases hub : (if y = [] then some ulim else pyInt y) with _ | ub
          · simp [hlb, hub] at h
          · simp only [hlb, hub, Except.ok.injEq, Option.some.injEq] at h
            subst h
            have hlb' : 0 ≤ lb := by
              by_cases hx : x = []
              · rw [if_pos hx] at hlb
                simp at hlb
                omega
              · rw [if_neg hx] at hlb
                exact pyInt_nonneg x lb (hnd x (by rw [hs]; simp)) hlb
            have hub' : 0 ≤ ub := by
              by_cases hy : y = []
              · rw [if_pos hy] at hub
                simp at hub
                omega
              · rw [if_neg hy] at hub
                exact pyInt_nonneg y ub (hnd y (by rw [hs]; simp)) hub
            exact ⟨hlb', hub'⟩
      · rw [hs] at h; simp at h

theorem parseAtomList_mem_origin (ulim : Int) (l : List (List Char))
    (ivs : List (Int × Int)) (h : parseAtomList ulim l = .ok ivs) :
    ∀ iv ∈ ivs, ∃ a ∈ l, parseAtom ulim a = .ok (some iv) := by
  induction l generalizing ivs with
  | nil =>
    simp only [parseAtomList, Except.ok.injEq] at h
    subst h; simp
  | cons a rest ih =>
    intro iv hiv
    rcases hr : parseAtom ulim a with e | o
    · rw [parseAtomList, hr] at h; simp at h
    · rcases o with _ | jv
      · rw [parseAtomList, hr] at h
        obtain ⟨b, hb, hpb⟩ := ih ivs h iv hiv
        exact ⟨b, List.mem_cons_of_mem a hb, hpb⟩
      · rw [parseAtomList, hr] at h
        rcases hrest : parseAtomList ulim rest with e' | jvs
        · rw [hrest] at h; simp at h
        · rw [hrest] at h
          simp only [Except.ok.injEq] at h
          subst h
          rcases List.mem_cons.mp hiv with hiv | hiv
          · subst hiv
            exact ⟨a, List.mem_cons_self a rest, hr⟩
          · obtain ⟨b, hb, hpb⟩ := ih jvs hrest iv hiv
            exact ⟨b, List.mem_cons_of_mem a hb, hpb⟩

theorem parseAtomList_mem_of (ulim : Int) (l : List (List Char))
    (ivs : List (Int × Int)) (a : List Char) (iv : Int × Int)
    (hmem : a ∈ l) (hp : parseAtom ulim a = .ok (some iv))
    (h : parseAtomList ulim l = .ok ivs) : iv ∈ ivs := by
  induction l generalizing ivs with
  | nil => simp at hmem
  | cons b rest ih =>
    rcases hr : parseAtom ulim b with e | o
    · rw [parseAtomList, hr] at h; simp at h
    · rcases o with _ | jv
      · rw [parseAtomList, hr] at h
        rcases List.mem_cons.mp hmem with hmem' | hmem'
        · subst hmem'; rw [hp] at hr; simp at hr
        · exact ih ivs hmem' h
      · rw [parseAtomList, hr] at h
        rcases hrest : parseAtomList ulim rest with e' | jvs
        · rw [hrest] at h; simp at h
        · rw [hrest] at h
          simp only [Except.ok.injEq] at h
          subst h
          rcases List.mem_cons.mp hmem with hmem' | hmem'
          · subst hmem'
            rw [hp] at hr
            simp only [Except.ok.injEq, Option.some.injEq] at hr
            subst hr
            exact List.mem_cons_self _ _
          · exact List.mem_cons_of_mem _ (ih jvs hmem' hrest)

theorem candidatesOf_nonneg (ulim : Int) (ranges : List Char)
    (cands : List (Int × Int)) (hul : 0 ≤ ulim)
    (h : candidatesOf ulim ranges = .ok cands) :
    ∀ iv ∈ cands, 0 ≤ iv.1 ∧ 0 ≤ iv.2 := by
  intro iv hiv
  obtain ⟨a, _, hpa⟩ := parseAtomList_mem_origin ulim _ cands h iv hiv
  exact parseAtom_ok_bounds ulim a iv hul hpa

theorem range_normalizer_ok_iff (ranges : List Char) (ulim : Int)
    (r : List (Int × Int)) :
    range_normalizer ranges ulim = .ok r ↔
      ∃ cands, candidatesOf ulim ranges = .ok cands ∧
        r = mergeAll (List.insertionSort lexLe cands) := by
  unfold range_normalizer
  rcases hc : candidatesOf ulim ranges with e | cands
  · constructor
    · intro h; simp at h
    · rintro ⟨cands', hc', hr⟩
      simp at hc'
  · constructor
    · intro h
      simp only [Except.ok.injEq] at h
      exact ⟨cands, rfl, h.symm⟩
    · rintro ⟨cands', hc', hr⟩
      simp only [Except.ok.injEq] at hc'
      subst hc'
      simp only [Except.ok.injEq]
      exact hr.symm

/-! ## Normalizer invariants (C2, C9) -/

/-- C2: for every range-expression string on which `normalize` succeeds
(with a non-negative sentinel, per the contract's "very large value"), the
returned interval list is sorted ascending by (lower, upper), every bound is
a non-negative integer, and no two intervals `A` (earlier) and `B` (later)
satisfy `A.lower ≤ B.lower ∧ A.upper ≥ B.lower - 1`. -/
theorem range_normalizer_invariant (ranges : List Char) (ulim : Int)
    (r : List (Int × Int)) (hul : 0 ≤ ulim)
    (h : range_normalizer ranges ulim = .ok r) :
    List.Pairwise lexLe r ∧ (∀ iv ∈ r, 0 ≤ iv.1 ∧ 0 ≤ iv.2) ∧
      List.Pairwise (fun A B : Int × Int => ¬(A.1 ≤ B.1 ∧ A.2 ≥ B.1 - 1)) r := by
  obtain ⟨cands, hc, hr⟩ := (range_normalizer_ok_iff ranges ulim r).mp h
  have hnn := candidatesOf_nonneg ulim ranges cands hul hc
  have hsorted : List.Pairwise lexLe (List.insertionSort lexLe cands) :=
    List.sorted_insertionSort lexLe cands
  obtain ⟨m1, m2, m3⟩ := mergeAll_spec _ hsorted
  subst hr
  refine ⟨m1, ?_, ?_⟩
  · intro iv hiv
    obtain ⟨c, hcmem, hc1, hc2⟩ := m3 iv hiv
    have hcand := hnn c ((List.mem_insertionSort lexLe).mp hcmem)
    omega
  · exact m2.imp (fun hAB => by omega)

theorem range_normalizer_invariant_witness :
    range_normalizer "-4,6-8,7-11,10-".toList (2 ^ 128) = .ok [(0, 4), (6, 2 ^ 128)] ∧
      (List.Pairwise lexLe [((0 : Int), (4 : Int)), (6, 2 ^ 128)] ∧
        (∀ iv ∈ [((0 : Int), (4 : Int)), (6, 2 ^ 128)], 0 ≤ iv.1 ∧ 0 ≤ iv.2) ∧
        List.Pairwise (fun A B : Int × Int => ¬(A.1 ≤ B.1 ∧ A.2 ≥ B.1 - 1))
          [((0 : Int), (4 : Int)), (6, 2 ^ 128)]) :=
  ⟨by decide, range_normalizer_invariant "-4,6-8,7-11,10-".toList (2 ^ 128)
    [(0, 4), (6, 2 ^ 128)] (by decide) (by decide)⟩

/-- C9 counterexample: `normalize("5-2")` succeeds and returns the interval
`(5, 2)`, whose lower bound exceeds its upper bound — the atom `A-B` with
`A > B` is passed through unrepaired, refuting `lower ≤ upper` for all
successful calls. -/
theorem range_normalizer_wf_counterexample :
    range_normalizer "5-2".toList (2 ^ 128) = .ok [(5, 2)] ∧ ¬ ((5 : Int) ≤ 2) := by
  constructor
  · decide
  · decide

/-- C9 (amended): every interval returned by a successful `normalize` call
satisfies `lower ≤ upper`, provided every candidate interval parsed from the
atoms already does (in particular every atom `A-B` has `A ≤ B` and every
atom `N-` has `N ≤ upperSentinel`). -/
theorem range_normalizer_wf (ranges : List Char) (ulim : Int)
    (cands r : List (Int × Int))
    (hc : candidatesOf ulim ranges = .ok cands)
    (hwf : ∀ iv ∈ cands, iv.1 ≤ iv.2)
    (h : range_normalizer ranges ulim = .ok r) :
    ∀ iv ∈ r, iv.1 ≤ iv.2 := by
  obtain ⟨cands', hc', hr⟩ := (range_normalizer_ok_iff ranges ulim r).mp h
  rw [hc] at hc'
  simp only [Except.ok.injEq] at hc'
  subst hc'
  subst hr
  have hsorted : List.Pairwise lexLe (List.insertionSort lexLe cands) :=
    List.sorted_insertionSort lexLe cands
  have hwfs : ∀ iv ∈ List.insertionSort lexLe cands, iv.1 ≤ iv.2 :=
    fun iv hiv => hwf iv ((List.mem_insertionSort lexLe).mp hiv)
  exact (mergeAll_cover _ hsorted hwfs).2

theorem range_normalizer_wf_witness :
    candidatesOf (2 ^ 128) "1,3-5".toList = .ok [(1, 1), (3, 5)] ∧
      ∀ iv ∈ [((1 : Int), (1 : Int)), (3, 5)], iv.1 ≤ iv.2 :=
  ⟨by decide, range_normalizer_wf "1,3-5".toList (2 ^ 128) [(1, 1), (3, 5)]
    [(1, 1), (3, 5)] (by decide) (by decide) (by decide)⟩

/-! ## Traversal of `RangeIterator` (C1, C6, C7 groundwork) -/

theorem runFilter_exhausted {α : Type} (fo : Bool) (item : Int) :
    ∀ (xs : List α) (p : Nat), item < (p : Int) →
      runFilter fo item [] p xs = if fo then xs else [] := by
  intro xs
  induction xs with
  | nil => intro p h; cases fo <;> simp [runFilter]
  | cons x xs ih =>
    intro p h
    have hne : ¬ ((p : Int) = item) := by omega
    simp only [runFilter, hne, if_false]
    rw [ih (p + 1) (by push_cast; omega)]
    cases fo <;> simp

theorem specFrom_all_false {α : Type} (fo : Bool) (f : Nat → Bool) :
    ∀ (xs : List α) (p : Nat), (∀ q, p ≤ q → f q = false) →
      specFrom fo f p xs = if fo then xs else [] := by
  intro xs
  induction xs with
  | nil => intro p h; cases fo <;> simp [specFrom]
  | cons x xs ih =>
    intro p h
    simp only [specFrom]
    rw [h p (le_refl p), ih (p + 1) (fun q hq => h q (by omega))]
    cases fo <;> simp

theorem specFrom_congr_ge {α : Type} (fo : Bool) (f g : Nat → Bool) :
    ∀ (xs : List α) (p : Nat), (∀ q, p ≤ q → f q = g q) →
      specFrom fo f p xs = specFrom fo g p xs := by
  intro xs
  induction xs with
  | nil => intro p h; simp [specFrom]
  | cons x xs ih =>
    intro p h
    simp only [specFrom]
    rw [h p (le_refl p), ih (p + 1) (fun q hq => h q (by omega))]

theorem runFilter_eq_specFrom {α : Type} (fo : Bool) :
    ∀ (xs : List α) (p : Nat) (item : Int) (rest : List Int),
      List.Pairwise (· < ·) (item :: rest) → (p : Int) ≤ item →
      runFilter fo item rest p xs =
        specFrom fo (fun q => decide ((q : Int) ∈ item :: rest)) p xs := by
  intro xs
  induction xs with
  | nil => intros; simp [runFilter, specFrom]
  | cons x xs ih =>
    intro p item rest hpair hple
    have hhead : ∀ z ∈ rest, item < z := (List.pairwise_cons.mp hpair).1
    have hR : ∀ (g : Nat → Bool),
        specFrom fo g p (x :: xs) =
          (if g p != fo then [x] else []) ++ specFrom fo g (p + 1) xs := by
      intro g
      rw [specFrom]
    by_cases hp : (p : Int) = item
    · have hfp : (decide ((p : Int) ∈ item :: rest)) = true := by
        simp [hp]
      rcases rest with _ | ⟨y, ys⟩
      · have hL : runFilter fo item [] p (x :: xs) =
            (if fo then [] else [x]) ++ runFilter fo item [] (p + 1) xs := by
          simp [runFilter, hp]
        rw [hL, hR]
        rw [runFilter_exhausted fo item xs (p + 1) (by push_cast; omega)]
        rw [specFrom_all_false fo _ xs (p + 1) ?hall]
        case hall =>
          intro q hq
          rw [decide_eq_false_iff_not]
          intro hmem
          rcases List.mem_cons.mp hmem with h | h
          · omega
          · simp at h
        rw [hfp]
        cases fo <;> rfl
      · have hL : runFilter fo item (y :: ys) p (x :: xs) =
            (if fo then [] else [x]) ++ runFilter fo y ys (p + 1) xs := by
          simp [runFilter, hp]
        rw [hL, hR]
        rw [ih (p + 1) y ys (List.Pairwise.of_cons hpair) ?hley]
        case hley =>
          have := hhead y (List.mem_cons_self y ys)
          push_cast
          omega
        have hc2 : specFrom fo (fun q => decide ((q : Int) ∈ y :: ys)) (p + 1) xs =
            specFrom fo (fun q => decide ((q : Int) ∈ item :: y :: ys)) (p + 1) xs := by
          apply specFrom_congr_ge
          intro q hq
          rw [decide_eq_decide]
          constructor
          · intro h
            exact List.mem_cons_of_mem item h
          · intro h
            rcases List.mem_cons.mp h with h | h
            · omega
            · exact h
        rw [hc2, hfp]
        cases fo <;> rfl
    · have hplt : (p : Int) < item := by omega
      have hfp : (decide ((p : Int) ∈ item :: rest)) = false := by
        rw [decide_eq_false_iff_not]
        intro hmem
        rcases List.mem_cons.mp hmem with h | h
        · omega
        · have := hhead _ h
          omega
      have hL : runFilter fo item rest p (x :: xs) =
          (if fo then [x] else []) ++ runFilter fo item rest (p + 1) xs := by
        simp [runFilter, hp]
      rw [hL, hR]
      rw [ih (p + 1) item rest hpair (by push_cast; omega)]
      rw [hfp]
      cases fo <;> rfl

theorem specFrom_eq_filter {α : Type} (fo : Bool) (f : Nat → Bool) :
    ∀ (xs : List α) (p : Nat),
      specFrom fo f p xs =
        ((List.enumFrom p xs).filter (fun e => f e.1 != fo)).map Prod.snd := by
  intro xs
  induction xs with
  | nil => intro p; simp [specFrom]
  | cons x xs ih =>
    intro p
    rw [specFrom, List.enumFrom_cons, List.filter_cons]
    cases hf : (f p != fo) <;> simp [hf, ih (p + 1)]


theorem intRange_mem (l u q : Int) : q ∈ intRange l u ↔ l ≤ q ∧ q ≤ u := by
  unfold intRange
  simp only [List.mem_map, List.mem_range]
  constructor
  · rintro ⟨i, hi, rfl⟩
    omega
  · intro ⟨h1, h2⟩
    exact ⟨(q - l).toNat, by omega, by omega⟩

theorem coveredList_mem (seqs : List (Int × Int)) (q : Int) :
    q ∈ coveredList seqs ↔ ∃ iv ∈ seqs, iv.1 ≤ q ∧ q ≤ iv.2 := by
  unfold coveredList
  rw [List.mem_flatMap]
  constructor
  · rintro ⟨iv, hiv, hq⟩
    exact ⟨iv, hiv, (intRange_mem iv.1 iv.2 q).mp hq⟩
  · rintro ⟨iv, hiv, hq⟩
    exact ⟨iv, hiv, (intRange_mem iv.1 iv.2 q).mpr hq⟩

theorem intRange_pairwise (l u : Int) : List.Pairwise (· < ·) (intRange l u) := by
  unfold intRange
  rw [List.pairwise_map]
  exact (List.pairwise_lt_range _).imp (fun h => by omega)

theorem coveredList_pairwise (seqs : List (Int × Int))
    (hgap : List.Pairwise (fun A B : Int × Int => A.2 + 1 < B.1) seqs) :
    List.Pairwise (· < ·) (coveredList seqs) := by
  induction seqs with
  | nil => simp [coveredList]
  | cons iv rest ih =>
    have hstep : coveredList (iv :: rest) = intRange iv.1 iv.2 ++ coveredList rest := by
      simp [coveredList]
    rw [hstep, List.pairwise_append]
    refine ⟨intRange_pairwise _ _, ih (List.Pairwise.of_cons hgap), ?_⟩
    intro q1 h1 q2 h2
    rw [intRange_mem] at h1
    obtain ⟨jv, hjv, hj1, hj2⟩ := (coveredList_mem rest q2).mp h2
    have := (List.pairwise_cons.mp hgap).1 jv hjv
    omega

theorem coveredList_ne_nil (seqs : List (Int × Int)) (hne : seqs ≠ [])
    (hwf : ∀ iv ∈ seqs, iv.1 ≤ iv.2) : coveredList seqs ≠ [] := by
  rcases seqs with _ | ⟨iv, rest⟩
  · exact absurd rfl hne
  · intro h
    have hmem : iv.1 ∈ coveredList (iv :: rest) := by
      rw [coveredList_mem]
      exact ⟨iv, List.mem_cons_self _ _, le_refl _, hwf iv (List.mem_cons_self _ _)⟩
    rw [h] at hmem
    simp at hmem

/-- C1: traversing the filtering sequence over a non-empty normalized
interval set (sorted, pairwise separated, well-formed non-negative
intervals) with `invert = false` yields exactly the input elements whose
0-based position lies in some interval of the set, in input order; with
`invert = true` it yields exactly the elements whose position lies in no
interval, in input order. -/
theorem rangeIterator_filters_by_position {α : Type} (input : List α)
    (seqs : List (Int × Int)) (hne : seqs ≠ [])
    (hwf : ∀ iv ∈ seqs, 0 ≤ iv.1 ∧ iv.1 ≤ iv.2)
    (hsort : List.Pairwise lexLe seqs)
    (hsep : List.Pairwise (fun A B : Int × Int => ¬(A.1 ≤ B.1 ∧ A.2 ≥ B.1 - 1)) seqs) :
    rangeIterator input seqs false = some (selectedElems input seqs) ∧
      rangeIterator input seqs true = some (rejectedElems input seqs) := by
  have hgap : List.Pairwise (fun A B : Int × Int => A.2 + 1 < B.1) seqs := by
    refine (hsort.and hsep).imp ?_
    intro A B hAB
    rcases hAB with ⟨hlex, hnc⟩
    unfold lexLe at hlex
    omega
  have hcov_pair : List.Pairwise (· < ·) (coveredList seqs) :=
    coveredList_pairwise seqs hgap
  have hcov_ne : coveredList seqs ≠ [] :=
    coveredList_ne_nil seqs hne (fun iv h => (hwf iv h).2)
  rcases hcv : coveredList seqs with _ | ⟨item, rest⟩
  · exact absurd hcv hcov_ne
  rw [hcv] at hcov_pair
  have h0 : (0 : Int) ≤ item := by
    have hmem : item ∈ coveredList seqs := by rw [hcv]; simp
    obtain ⟨iv, hiv, h1, _⟩ := (coveredList_mem seqs item).mp hmem
    have := (hwf iv hiv).1
    omega
  have hridef : ∀ fo : Bool,
      rangeIterator input seqs fo = some (runFilter fo item rest 0 input) := by
    intro fo
    unfold rangeIterator
    rw [hcv]
  have hbridge : ∀ q : Nat, (decide ((q : Int) ∈ item :: rest)) = inIntervalSet seqs q := by
    intro q
    rw [← hcv]
    unfold inIntervalSet
    cases hb : seqs.any (fun iv => iv.1 ≤ (q : Int) && (q : Int) ≤ iv.2)
    · rw [decide_eq_false_iff_not]
      intro hmem
      obtain ⟨iv, hiv, h1, h2⟩ := (coveredList_mem seqs q).mp hmem
      rw [List.any_eq_false] at hb
      have := hb iv hiv
      simp at this
      omega
    · rw [decide_eq_true_eq]
      rw [List.any_eq_true] at hb
      obtain ⟨iv, hiv, hiq⟩ := hb
      simp at hiq
      exact (coveredList_mem seqs q).mpr ⟨iv, hiv, hiq.1, hiq.2⟩
  have hmain : ∀ fo : Bool, runFilter fo item rest 0 input =
      specFrom fo (fun q => inIntervalSet seqs q) 0 input := by
    intro fo
    rw [runFilter_eq_specFrom fo input 0 item rest hcov_pair (by exact_mod_cast h0)]
    exact specFrom_congr_ge fo _ _ input 0 (fun q _ => hbridge q)
  constructor
  · rw [hridef false, hmain false, specFrom_eq_filter]
    unfold selectedElems
    rw [List.enum_eq_enumFrom]
    have hpred : (fun (e : Nat × α) => inIntervalSet seqs e.1 != false) =
        (fun (e : Nat × α) => inIntervalSet seqs e.1) := by
      funext e
      simp
    rw [hpred]
  · rw [hridef true, hmain true, specFrom_eq_filter]
    unfold rejectedElems
    rw [List.enum_eq_enumFrom]
    have hpred : (fun (e : Nat × α) => inIntervalSet seqs e.1 != true) =
        (fun (e : Nat × α) => !inIntervalSet seqs e.1) := by
      funext e
      simp
    rw [hpred]

theorem rangeIterator_filters_by_position_witness :
    ([((1 : Int), (2 : Int)), (4, 4)] ≠ []) ∧
      rangeIterator ([10, 20, 30, 40, 50] : List Int) [(1, 2), (4, 4)] false =
        some (selectedElems [10, 20, 30, 40, 50] [(1, 2), (4, 4)]) ∧
      rangeIterator ([10, 20, 30, 40, 50] : List Int) [(1, 2), (4, 4)] true =
        some (rejectedElems [10, 20, 30, 40, 50] [(1, 2), (4, 4)]) :=
  ⟨by decide, rangeIterator_filters_by_position [10, 20, 30, 40, 50] [(1, 2), (4, 4)]
    (by decide) (by decide) (by decide) (by decide)⟩

/-! ## Partition of positions (C6) and the empty-set failure (C6, C7) -/

theorem runFilter_partition {α : Type} :
    ∀ (xs : List α) (p : Nat) (item : Int) (rest : List Int),
      (runFilter false item rest p xs ++ runFilter true item rest p xs).Perm xs := by
  intro xs
  induction xs with
  | nil => intro p item rest; simp [runFilter]
  | cons x xs ih =>
    intro p item rest
    by_cases hp : (p : Int) = item
    · rcases rest with _ | ⟨y, ys⟩
      · have hF : runFilter false item [] p (x :: xs) =
            x :: runFilter false item [] (p + 1) xs := by
          simp [runFilter, hp]
        have hT : runFilter true item [] p (x :: xs) =
            runFilter true item [] (p + 1) xs := by
          simp [runFilter, hp]
        rw [hF, hT, List.cons_append]
        exact (ih (p + 1) item []).cons x
      · have hF : runFilter false item (y :: ys) p (x :: xs) =
            x :: runFilter false y ys (p + 1) xs := by
          simp [runFilter, hp]
        have hT : runFilter true item (y :: ys) p (x :: xs) =
            runFilter true y ys (p + 1) xs := by
          simp [runFilter, hp]
        rw [hF, hT, List.cons_append]
        exact (ih (p + 1) y ys).cons x
    · have hF : runFilter false item rest p (x :: xs) =
          runFilter false item rest (p + 1) xs := by
        simp [runFilter, hp]
      have hT : runFilter true item rest p (x :: xs) =
          x :: runFilter true item rest (p + 1) xs := by
        simp [runFilter, hp]
      rw [hF, hT]
      exact List.perm_middle.trans ((ih (p + 1) item rest).cons x)

/-- C6 counterexample: over the empty Interval Set and the three-element
input `0, 1, 2`, both traversals abort with the `StopIteration` escaping
`__iter__` (modelled as `none`), so no pair of selected-position lists
exists at all — the claimed partition fails for this Interval Set. -/
theorem rangeIterator_partition_counterexample :
    rangeIterator (List.range 3) ([] : List (Int × Int)) false = none ∧
      rangeIterator (List.range 3) ([] : List (Int × Int)) true = none ∧
      ¬∃ A B : List Nat,
        rangeIterator (List.range 3) ([] : List (Int × Int)) false = some A ∧
          rangeIterator (List.range 3) ([] : List (Int × Int)) true = some B := by
  refine ⟨rfl, rfl, ?_⟩
  rintro ⟨A, B, hA, hB⟩
  rw [show rangeIterator (List.range 3) ([] : List (Int × Int)) false = none from rfl] at hA
  exact Option.noConfusion hA

/-- C6 (amended): whenever both traversals of a filtering sequence over an
input of length `n` run at all (they abort exactly when the interval set
covers no integer), the positions selected with `invert = false` and with
`invert = true` are disjoint and together are exactly `{0, …, n-1}`. -/
theorem rangeIterator_positions_partition (seqs : List (Int × Int)) (n : Nat)
    (A B : List Nat)
    (hA : rangeIterator (List.range n) seqs false = some A)
    (hB : rangeIterator (List.range n) seqs true = some B) :
    (A ++ B).Perm (List.range n) ∧
      (∀ q, (q ∈ A ∨ q ∈ B) ↔ q ∈ List.range n) ∧
      (∀ q, ¬(q ∈ A ∧ q ∈ B)) := by
  rcases hcv : coveredList seqs with _ | ⟨item, rest⟩
  · unfold rangeIterator at hA
    rw [hcv] at hA
    exact Option.noConfusion hA
  · unfold rangeIterator at hA hB
    rw [hcv] at hA hB
    simp only [Option.some.injEq] at hA hB
    subst hA
    subst hB
    have hperm := runFilter_partition (List.range n) 0 item rest
    refine ⟨hperm, ?_, ?_⟩
    · intro q
      rw [← hperm.mem_iff]
      simp [List.mem_append]
    · intro q hq
      have hnodup : (runFilter false item rest 0 (List.range n) ++
          runFilter true item rest 0 (List.range n)).Nodup :=
        hperm.nodup_iff.mpr (List.nodup_range n)
      rw [List.nodup_append] at hnodup
      exact hnodup.2.2 hq.1 hq.2

theorem rangeIterator_positions_partition_witness :
    rangeIterator (List.range 3) [((0 : Int), (1 : Int))] false = some [0, 1] ∧
      (([0, 1] ++ [2]) : List Nat).Perm (List.range 3) :=
  ⟨by decide, (rangeIterator_positions_partition [(0, 1)] 3 [0, 1] [2]
    (by decide) (by decide)).1⟩

/-- C7 (evaluation at the failing input): `RangeIterator.__iter__` primes
its covered-integer cursor with an unguarded `next()`, so over the empty
Interval Set the very first step of a traversal raises `StopIteration`
(modelled as `none`) instead of yielding nothing (`invert = false`) or
everything (`invert = true`) — for any input, here `[10, 20, 30]`. -/
theorem rangeIterator_empty_set_raises :
    rangeIterator ([10, 20, 30] : List Int) ([] : List (Int × Int)) false = none ∧
      rangeIterator ([10, 20, 30] : List Int) ([] : List (Int × Int)) true = none :=
  ⟨rfl, rfl⟩

/-! ## The all-covering atom (C8) -/

theorem innerScan_absorb (ulim : Int) :
    ∀ (l : List (Int × Int)) (u : Int),
      0 ≤ u → u ≤ ulim →
      ((0, ulim) ∈ l ∨ u = ulim) →
      (∀ b ∈ l, 0 ≤ b.1 ∧ b.1 ≤ ulim ∧ b.2 ≤ ulim) →
      List.Pairwise (fun A B : Int × Int => A.1 ≤ B.1) ((0, u) :: l) →
      innerScan (0, u) l = ((0, ulim), []) := by
  intro l
  induction l with
  | nil =>
    intro u h0 hle hmem hbnd hsort
    rcases hmem with hmem | hmem
    · simp at hmem
    · subst hmem; simp [innerScan]
  | cons b rest ih =>
    intro u h0 hle hmem hbnd hsort
    have hb := hbnd b (List.mem_cons_self b rest)
    have hcond : mergeCond (0, u) b := by
      show 0 ≤ b.1 ∧ b.1 - 1 ≤ u
      rcases hmem with hmem | hmem
      · rcases List.mem_cons.mp hmem with hmem' | hmem'
        · have hb1 : b.1 = 0 := by rw [← hmem']
          omega
        · have hble : b.1 ≤ 0 := by
            have hp := (List.pairwise_cons.mp (List.Pairwise.of_cons hsort)).1
              (0, ulim) hmem'
            simpa using hp
          omega
      · omega
    have hstep : innerScan (0, u) (b :: rest) = innerScan (0, max u b.2) rest := by
      simp [innerScan, hcond]
    rw [hstep]
    apply ih (max u b.2) (by omega) (by omega)
    · rcases hmem with hmem | hmem
      · rcases List.mem_cons.mp hmem with hmem' | hmem'
        · right
          have hb2 : b.2 = ulim := by rw [← hmem']
          omega
        · left; exact hmem'
      · right; omega
    · exact fun c hc => hbnd c (List.mem_cons_of_mem b hc)
    · rw [List.pairwise_cons]
      refine ⟨fun c hc => ?_, (List.pairwise_cons.mp (List.Pairwise.of_cons hsort)).2⟩
      have := (hbnd c (List.mem_cons_of_mem b hc)).1
      simpa using this

/-- C8 counterexample: the input `"-,N"` with `N = 2^128 + 2` (one atom
above the default sentinel) contains the atom `-` together with another
non-empty atom and normalizes successfully, yet the result keeps two
intervals: the sentinel-wide interval cannot absorb an interval starting
more than one past the sentinel. -/
theorem range_normalizer_dash_dominates_counterexample :
    range_normalizer "-,340282366920938463463374607431768211458".toList (2 ^ 128) =
      .ok [(0, 2 ^ 128), (340282366920938463463374607431768211458,
        340282366920938463463374607431768211458)] ∧
      [((0 : Int), (2 : Int) ^ 128), (340282366920938463463374607431768211458,
        340282366920938463463374607431768211458)] ≠ [((0 : Int), (2 : Int) ^ 128)] := by
  constructor
  · decide
  · decide

/-- C8 (amended): for every range-expression string containing an atom `-`
together with at least one other non-empty atom, if `normalize` succeeds and
every candidate interval stays within the (non-negative) sentinel — i.e.
every numeral in the input is at most `upperSentinel` — then the result is
the single all-covering interval `[(0, upperSentinel)]`. -/
theorem range_normalizer_dash_dominates (ranges : List Char) (ulim : Int)
    (cands : List (Int × Int))
    (hul : 0 ≤ ulim)
    (hdash : ['-'] ∈ splitOnChar ',' ranges)
    (_hother : ∃ a ∈ splitOnChar ',' ranges, a ≠ [] ∧ a ≠ ['-'])
    (hc : candidatesOf ulim ranges = .ok cands)
    (hbnd : ∀ iv ∈ cands, iv.1 ≤ ulim ∧ iv.2 ≤ ulim) :
    range_normalizer ranges ulim = .ok [(0, ulim)] := by
  have hdash_cand : (0, ulim) ∈ cands := by
    apply parseAtomList_mem_of ulim _ cands ['-'] (0, ulim) hdash ?_ hc
    rfl
  have hnn := candidatesOf_nonneg ulim ranges cands hul hc
  have hperm : (List.insertionSort lexLe cands).Perm cands :=
    List.perm_insertionSort lexLe cands
  have hsorted : List.Pairwise lexLe (List.insertionSort lexLe cands) :=
    List.sorted_insertionSort lexLe cands
  have hmem_s : (0, ulim) ∈ List.insertionSort lexLe cands :=
    hperm.mem_iff.mpr hdash_cand
  have hbnd_s : ∀ iv ∈ List.insertionSort lexLe cands,
      0 ≤ iv.1 ∧ iv.1 ≤ ulim ∧ iv.2 ≤ ulim ∧ 0 ≤ iv.2 := by
    intro iv hiv
    have h1 := hbnd iv (hperm.subset hiv)
    have h2 := hnn iv (hperm.subset hiv)
    exact ⟨h2.1, h1.1, h1.2, h2.2⟩
  have hlow : List.Pairwise (fun A B : Int × Int => A.1 ≤ B.1)
      (List.insertionSort lexLe cands) :=
    hsorted.imp (fun h => by unfold lexLe at h; omega)
  have hmerge : mergeAll (List.insertionSort lexLe cands) = [(0, ulim)] := by
    rcases hsl : List.insertionSort lexLe cands with _ | ⟨a, rest⟩
    · rw [hsl] at hmem_s; simp at hmem_s
    · rw [hsl] at hmem_s hbnd_s hlow
      have ha := hbnd_s a (List.mem_cons_self a rest)
      have ha1 : a.1 = 0 := by
        rcases List.mem_cons.mp hmem_s with h | h
        · rw [← h]
        · have hp := (List.pairwise_cons.mp hlow).1 (0, ulim) h
          simp at hp
          omega
      have haa : a = (0, a.2) := by
        rw [← ha1]
      have habsorb : innerScan a rest = ((0, ulim), []) := by
        rw [haa]
        apply innerScan_absorb ulim rest a.2 ha.2.2.2 ha.2.2.1
        · rcases List.mem_cons.mp hmem_s with h | h
          · right
            have : a.2 = ulim := by rw [← h]
            omega
          · left; exact h
        · exact fun c hc => ⟨(hbnd_s c (List.mem_cons_of_mem a hc)).1,
            (hbnd_s c (List.mem_cons_of_mem a hc)).2.1,
            (hbnd_s c (List.mem_cons_of_mem a hc)).2.2.1⟩
        · rw [← haa]; exact hlow
      rcases rest with _ | ⟨b, rs⟩
      · have : a = (0, ulim) := by
          have hi : innerScan a [] = (a, []) := by simp [innerScan]
          rw [hi] at habsorb
          exact congrArg Prod.fst habsorb
        rw [this]
        rfl
      · show mergeOuter ((a :: b :: rs).length - 1) (a :: b :: rs) = [(0, ulim)]
        have hlen : (a :: b :: rs).length - 1 = rs.length + 1 := by simp
        rw [hlen]
        show (innerScan a (b :: rs)).1 ::
          mergeOuter rs.length (innerScan a (b :: rs)).2 = [(0, ulim)]
        rw [habsorb]
        simp [mergeOuter]
  unfold range_normalizer
  rw [hc]
  show (Except.ok (mergeAll (List.insertionSort lexLe cands)) :
    Except Unit (List (Int × Int))) = .ok [(0, ulim)]
  rw [hmerge]

theorem range_normalizer_dash_dominates_witness :
    candidatesOf (2 ^ 128) "-,5".toList = .ok [(0, 2 ^ 128), (5, 5)] ∧
      range_normalizer "-,5".toList (2 ^ 128) = .ok [(0, 2 ^ 128)] :=
  ⟨by decide, range_normalizer_dash_dominates "-,5".toList (2 ^ 128)
    [(0, 2 ^ 128), (5, 5)] (by decide) (by decide)
    ⟨"5".toList, by decide, by decide, by decide⟩ (by decide) (by decide)⟩

/-! ## Whitespace in numerals (C10) -/

theorem stripPy_cons_space (cs : List Char) : stripPy (' ' :: cs) = stripPy cs := by
  unfold stripPy
  rw [List.dropWhile_cons]
  simp [isPySpace]

theorem stripPy_append_space (cs : List Char) : stripPy (cs ++ [' ']) = stripPy cs := by
  unfold stripPy
  rw [List.dropWhile_append]
  rcases hd : (cs.dropWhile isPySpace).isEmpty with _ | _
  · rw [if_neg (by simp)]
    rw [List.reverse_append]
    simp only [List.reverse_singleton, List.singleton_append]
    rw [List.dropWhile_cons]
    simp [isPySpace]
  · rw [if_pos rfl]
    have hnil : cs.dropWhile isPySpace = [] := by
      rwa [List.isEmpty_iff] at hd
    rw [hnil]
    simp [isPySpace]

/-- C10: `normalize` accepts atoms whose numerals carry leading or trailing
whitespace and parses them as the corresponding integers without raising the
malformed-input error: the input `"1, 3, 5-"` succeeds and yields
`[(1,1), (3,3), (5, upperSentinel)]`, because integer parsing strips
surrounding whitespace (adding a space to either end of a numeral never
changes its parse). -/
theorem range_normalizer_whitespace :
    range_normalizer "1, 3, 5-".toList (2 ^ 128) = .ok [(1, 1), (3, 3), (5, 2 ^ 128)] ∧
      (∀ cs : List Char, pyInt (' ' :: cs) = pyInt cs) ∧
      (∀ cs : List Char, pyInt (cs ++ [' ']) = pyInt cs) := by
  refine ⟨by decide, ?_, ?_⟩
  · intro cs
    unfold pyInt
    rw [stripPy_cons_space]
  · intro cs
    unfold pyInt
    rw [stripPy_append_space]

/-! ## Minimality of the normalized cover (C5) -/

theorem inIv_iff (iv : Int × Int) (q : Int) : inIv iv q ↔ iv.1 ≤ q ∧ q ≤ iv.2 :=
  Iff.rfl

theorem mem_coverSet_iff (L : List (Int × Int)) (q : Int) :
    q ∈ coverSet L ↔ ∃ iv ∈ L, iv.1 ≤ q ∧ q ≤ iv.2 :=
  Iff.rfl

theorem coverSet_perm (l l' : List (Int × Int)) (h : l.Perm l') :
    coverSet l = coverSet l' := by
  ext q
  rw [mem_coverSet_iff, mem_coverSet_iff]
  constructor <;> rintro ⟨iv, hiv, hq⟩
  · exact ⟨iv, h.subset hiv, hq⟩
  · exact ⟨iv, h.symm.subset hiv, hq⟩

/-- C5 counterexample: `normalize("5-2")` succeeds with the single candidate
`(5, 2)` and returns `[(5, 2)]`, but that list is not the minimal sorted
disjoint interval set covering the same integers as the candidates: the
interval `(5, 2)` covers no integer at all, so the empty list covers the
same set with strictly fewer intervals. -/
theorem range_normalizer_minimal_counterexample :
    range_normalizer "5-2".toList (2 ^ 128) = .ok [(5, 2)] ∧
      candidatesOf (2 ^ 128) "5-2".toList = .ok [(5, 2)] ∧
      ¬ minimalCover [((5 : Int), (2 : Int))] [((5 : Int), (2 : Int))] := by
  refine ⟨by decide, by decide, ?_⟩
  rintro ⟨hsd, hcov, hmin⟩
  have hempty : coverSet ([] : List (Int × Int)) = coverSet [((5 : Int), (2 : Int))] := by
    ext q
    rw [mem_coverSet_iff, mem_coverSet_iff]
    constructor
    · rintro ⟨iv, hiv, _⟩
      simp at hiv
    · rintro ⟨iv, hiv, h1, h2⟩
      rcases List.mem_singleton.mp hiv with rfl
      omega
  have hlen := hmin [] ⟨by simp, by simp, by simp⟩ hempty
  simp at hlen

theorem goodShape_minimal : ∀ (Lp : List (Int × Int)), sortedDisjoint Lp →
    ∀ (r : List (Int × Int)), (∀ iv ∈ r, iv.1 ≤ iv.2) →
      List.Pairwise (fun A B : Int × Int => A.2 + 1 < B.1) r →
      coverSet r = coverSet Lp → r.length ≤ Lp.length := by
  intro Lp
  induction Lp with
  | nil =>
    intro _ r hwf hgap hcov
    rcases r with _ | ⟨iv, rest⟩
    · simp
    · exfalso
      have hmem : iv.1 ∈ coverSet (iv :: rest) := by
        rw [mem_coverSet_iff]
        exact ⟨iv, List.mem_cons_self _ _, le_refl _, hwf iv (List.mem_cons_self _ _)⟩
      rw [hcov, mem_coverSet_iff] at hmem
      obtain ⟨jv, hjv, _⟩ := hmem
      simp at hjv
  | cons hd tl ih =>
    intro hsd r hwf hgap hcov
    obtain ⟨hwfL, hlexL, hdisjL⟩ := hsd
    rcases r with _ | ⟨rv, rrest⟩
    · exact Nat.zero_le _
    · have hwf_hd : hd.1 ≤ hd.2 := hwfL hd (List.mem_cons_self _ _)
      have hwf_rv : rv.1 ≤ rv.2 := hwf rv (List.mem_cons_self _ _)
      have hgap_hd : ∀ iv ∈ rrest, rv.2 + 1 < iv.1 := (List.pairwise_cons.mp hgap).1
      have hlex_hd : ∀ iv ∈ tl, hd.1 ≤ iv.1 := by
        intro iv hiv
        have := (List.pairwise_cons.mp hlexL).1 iv hiv
        unfold lexLe at this
        omega
      have hdisj_hd : ∀ iv ∈ tl, ∀ q : Int, ¬(inIv hd q ∧ inIv iv q) :=
        (List.pairwise_cons.mp hdisjL).1
      have hmin_L : ∀ q ∈ coverSet (hd :: tl), hd.1 ≤ q := by
        intro q hq
        rw [mem_coverSet_iff] at hq
        obtain ⟨iv, hiv, h1, h2⟩ := hq
        rcases List.mem_cons.mp hiv with hiv | hiv
        · subst hiv; omega
        · have := hlex_hd iv hiv; omega
      have hmin_r : ∀ q ∈ coverSet (rv :: rrest), rv.1 ≤ q := by
        intro q hq
        rw [mem_coverSet_iff] at hq
        obtain ⟨iv, hiv, h1, h2⟩ := hq
        rcases List.mem_cons.mp hiv with hiv | hiv
        · subst hiv; omega
        · have := hgap_hd iv hiv; omega
      have hr1cov : rv.1 ∈ coverSet (hd :: tl) := by
        rw [← hcov, mem_coverSet_iff]
        exact ⟨rv, List.mem_cons_self _ _, le_refl _, hwf_rv⟩
      have hh1cov : hd.1 ∈ coverSet (rv :: rrest) := by
        rw [hcov, mem_coverSet_iff]
        exact ⟨hd, List.mem_cons_self _ _, le_refl _, hwf_hd⟩
      have heq1 : hd.1 = rv.1 := le_antisymm (hmin_L rv.1 hr1cov) (hmin_r hd.1 hh1cov)
      have hgapout : (rv.2 + 1) ∉ coverSet (rv :: rrest) := by
        intro hq
        rw [mem_coverSet_iff] at hq
        obtain ⟨iv, hiv, h1, h2⟩ := hq
        rcases List.mem_cons.mp hiv with hiv | hiv
        · subst hiv; omega
        · have := hgap_hd iv hiv; omega
      have hble : hd.2 ≤ rv.2 := by
        by_contra hgt
        push_neg at hgt
        have hmem2 : (rv.2 + 1) ∈ coverSet (hd :: tl) := by
          rw [mem_coverSet_iff]
          exact ⟨hd, List.mem_cons_self _ _, by omega, by omega⟩
        rw [← hcov] at hmem2
        exact hgapout hmem2
      by_cases hbe : hd.2 = rv.2
      · have hcovtl : coverSet rrest = coverSet tl := by
          ext q
          constructor
          · intro hq
            rw [mem_coverSet_iff] at hq
            obtain ⟨iv, hiv, hq2, hq3⟩ := hq
            have hqr : q ∈ coverSet (rv :: rrest) := by
              rw [mem_coverSet_iff]
              exact ⟨iv, List.mem_cons_of_mem _ hiv, hq2, hq3⟩
            rw [hcov, mem_coverSet_iff] at hqr
            obtain ⟨jv, hjv, hq4, hq5⟩ := hqr
            rcases List.mem_cons.mp hjv with hjv | hjv
            · exfalso
              subst hjv
              have := hgap_hd iv hiv
              omega
            · rw [mem_coverSet_iff]
              exact ⟨jv, hjv, hq4, hq5⟩
          · intro hq
            rw [mem_coverSet_iff] at hq
            obtain ⟨iv, hiv, hq2, hq3⟩ := hq
            have hqL : q ∈ coverSet (hd :: tl) := by
              rw [mem_coverSet_iff]
              exact ⟨iv, List.mem_cons_of_mem _ hiv, hq2, hq3⟩
            rw [← hcov, mem_coverSet_iff] at hqL
            obtain ⟨jv, hjv, hq4, hq5⟩ := hqL
            rcases List.mem_cons.mp hjv with hjv | hjv
            · exfalso
              subst hjv
              refine hdisj_hd iv hiv q ⟨(inIv_iff hd q).mpr ⟨by omega, by omega⟩,
                (inIv_iff iv q).mpr ⟨hq2, hq3⟩⟩
            · rw [mem_coverSet_iff]
              exact ⟨jv, hjv, hq4, hq5⟩
        have hrec := ih ⟨fun iv hiv => hwfL iv (List.mem_cons_of_mem _ hiv),
          (List.pairwise_cons.mp hlexL).2, (List.pairwise_cons.mp hdisjL).2⟩
          rrest (fun iv hiv => hwf iv (List.mem_cons_of_mem _ hiv))
          (List.Pairwise.of_cons hgap) hcovtl
        simpa using Nat.succ_le_succ hrec
      · have hblt : hd.2 < rv.2 := by omega
        have hrec := ih ⟨fun iv hiv => hwfL iv (List.mem_cons_of_mem _ hiv),
          (List.pairwise_cons.mp hlexL).2, (List.pairwise_cons.mp hdisjL).2⟩
          ((hd.2 + 1, rv.2) :: rrest) ?wfr ?gapr ?covr
        case wfr =>
          intro iv hiv
          rcases List.mem_cons.mp hiv with hiv | hiv
          · subst hiv
            show hd.2 + 1 ≤ rv.2
            omega
          · exact hwf iv (List.mem_cons_of_mem _ hiv)
        case gapr =>
          rw [List.pairwise_cons]
          refine ⟨fun iv hiv => ?_, List.Pairwise.of_cons hgap⟩
          have := hgap_hd iv hiv
          show (hd.2 + 1, rv.2).2 + 1 < iv.1
          omega
        case covr =>
          ext q
          constructor
          · intro hq
            rw [mem_coverSet_iff] at hq
            obtain ⟨iv, hiv, hq2, hq3⟩ := hq
            rcases List.mem_cons.mp hiv with hiv | hiv
            · subst hiv
              have hq2' : hd.2 + 1 ≤ q := hq2
              have hq3' : q ≤ rv.2 := hq3
              have hqr : q ∈ coverSet (rv :: rrest) := by
                rw [mem_coverSet_iff]
                exact ⟨rv, List.mem_cons_self _ _, by omega, by omega⟩
              rw [hcov, mem_coverSet_iff] at hqr
              obtain ⟨jv, hjv, hq4, hq5⟩ := hqr
              rcases List.mem_cons.mp hjv with hjv | hjv
              · exfalso
                subst hjv
                omega
              · rw [mem_coverSet_iff]
                exact ⟨jv, hjv, hq4, hq5⟩
            · have hqr : q ∈ coverSet (rv :: rrest) := by
                rw [mem_coverSet_iff]
                exact ⟨iv, List.mem_cons_of_mem _ hiv, hq2, hq3⟩
              rw [hcov, mem_coverSet_iff] at hqr
              obtain ⟨jv, hjv, hq4, hq5⟩ := hqr
              rcases List.mem_cons.mp hjv with hjv | hjv
              · exfalso
                have hj2 : jv.2 = hd.2 := by rw [hjv]
                have := hgap_hd iv hiv
                omega
              · rw [mem_coverSet_iff]
                exact ⟨jv, hjv, hq4, hq5⟩
          · intro hq
            rw [mem_coverSet_iff] at hq
            obtain ⟨iv, hiv, hq2, hq3⟩ := hq
            have hqL : q ∈ coverSet (hd :: tl) := by
              rw [mem_coverSet_iff]
              exact ⟨iv, List.mem_cons_of_mem _ hiv, hq2, hq3⟩
            rw [← hcov, mem_coverSet_iff] at hqL
            obtain ⟨jv, hjv, hq4, hq5⟩ := hqL
            rcases List.mem_cons.mp hjv with hjv | hjv
            · have hq4r : rv.1 ≤ q := by rw [← hjv]; exact hq4
              have hq5r : q ≤ rv.2 := by rw [← hjv]; exact hq5
              by_cases hqh : q ≤ hd.2
              · exfalso
                refine hdisj_hd iv hiv q ⟨(inIv_iff hd q).mpr ⟨by omega, hqh⟩,
                  (inIv_iff iv q).mpr ⟨hq2, hq3⟩⟩
              · rw [mem_coverSet_iff]
                refine ⟨(hd.2 + 1, rv.2), List.mem_cons_self _ _, ?_, ?_⟩
                · show hd.2 + 1 ≤ q
                  omega
                · show q ≤ rv.2
                  omega
            · rw [mem_coverSet_iff]
              exact ⟨jv, List.mem_cons_of_mem _ hjv, hq4, hq5⟩
        simp only [List.length_cons] at hrec ⊢
        omega

/-- C5 (amended): provided every candidate interval parsed from the atoms is
well-formed (`lower ≤ upper` — every atom `A-B` with `A ≤ B`, every `N-`
with `N ≤ upperSentinel`), the returned list is the minimal sorted, disjoint
interval set covering exactly the same integers as the union of the
candidates (with merging transitive across chains of overlapping or
contiguous candidates), and moreover consecutive returned intervals are
separated by at least one uncovered integer. -/
theorem range_normalizer_minimal_cover (ranges : List Char) (ulim : Int)
    (cands r : List (Int × Int))
    (hc : candidatesOf ulim ranges = .ok cands)
    (hwf : ∀ iv ∈ cands, iv.1 ≤ iv.2)
    (h : range_normalizer ranges ulim = .ok r) :
    minimalCover r cands ∧
      List.Pairwise (fun A B : Int × Int => A.2 + 1 < B.1) r := by
  obtain ⟨cands', hc', hr⟩ := (range_normalizer_ok_iff ranges ulim r).mp h
  rw [hc] at hc'
  simp only [Except.ok.injEq] at hc'
  subst hc'
  subst hr
  have hsorted : List.Pairwise lexLe (List.insertionSort lexLe cands) :=
    List.sorted_insertionSort lexLe cands
  have hperm : (List.insertionSort lexLe cands).Perm cands :=
    List.perm_insertionSort lexLe cands
  have hwfs : ∀ iv ∈ List.insertionSort lexLe cands, iv.1 ≤ iv.2 :=
    fun iv hiv => hwf iv (hperm.subset hiv)
  obtain ⟨m1, m2, m3⟩ := mergeAll_spec _ hsorted
  obtain ⟨c1, c2⟩ := mergeAll_cover _ hsorted hwfs
  have hgapr : List.Pairwise (fun A B : Int × Int => A.2 + 1 < B.1)
      (mergeAll (List.insertionSort lexLe cands)) :=
    m2.imp (fun hAB => by omega)
  have hcover : coverSet (mergeAll (List.insertionSort lexLe cands)) = coverSet cands := by
    rw [c1]
    exact coverSet_perm _ _ hperm
  refine ⟨⟨⟨c2, m1, ?_⟩, hcover, ?_⟩, hgapr⟩
  · refine hgapr.imp ?_
    intro A B hAB q hq
    obtain ⟨hA, hB⟩ := hq
    rw [inIv_iff] at hA hB
    omega
  · intro Lp hLp hcovL
    exact goodShape_minimal Lp hLp _ c2 hgapr (by rw [hcover, ← hcovL])

theorem range_normalizer_minimal_cover_witness :
    candidatesOf (2 ^ 128) "-4,6-8,7-11,10-".toList =
        .ok [(0, 4), (6, 8), (7, 11), (10, 2 ^ 128)] ∧
      coverSet [((0 : Int), (4 : Int)), (6, 2 ^ 128)] =
        coverSet [((0 : Int), (4 : Int)), (6, 8), (7, 11), (10, 2 ^ 128)] :=
  ⟨by decide, (range_normalizer_minimal_cover "-4,6-8,7-11,10-".toList (2 ^ 128)
    [(0, 4), (6, 8), (7, 11), (10, 2 ^ 128)] [(0, 4), (6, 2 ^ 128)]
    (by decide) (by decide) (by decide)).1.2.1⟩
